import Mathlib

/-!
Verification development for the noblemachine repository.

The development shallowly embeds the JavaScript sources:
  * `Action` (src/unnamed/part_000, first document): cancellable unit of
    asynchronous work with success/error/cancel events and a list of
    tracked sub-actions;
  * `StateMachine` (same file): an `Action` with named state handlers and
    a `transition` primitive binding a child action's outcome to states;
  * `TransitionQueue` (same file): a parallel join of transition specs
    over a bound state machine;
  * the sequencer `NobleMachine` (src/noblemachine.js and the second
    document of src/unnamed/part_000): ordered auto-advancing machine with
    `makeHandler` wrapping, `go`/`runState`/`toState`/`toNext` navigation,
    built-in `complete`/`error` states and an `ensure` exit hook.

JavaScript objects used as string-keyed handler maps are embedded as
association lists; machine integers are `Nat`/`Int`; JS exceptions are
values of an explicit result type.  Event-driven parts are embedded by
making the listener bodies explicit functions on the relevant state and by
quantifying over the order in which one-shot events arrive.
-/

/-- A JS error value: a message plus an optional stack trace string. -/
structure JsErr where
  msg : String
  stack : Option String
deriving DecidableEq

/-- Plain JS values that flow through handler arguments in this code base. -/
inductive Val where
  | str (s : String)
  | num (n : Int)
  | err (e : JsErr)
deriving DecidableEq

/-- The stack lines logged for an error: `if (e.stack) logger.error(e.stack)`. -/
def stackList (e : JsErr) : List String :=
  match e.stack with
  | some st => [st]
  | none => []

/-! ## Association-list embedding of JS objects used as handler maps -/

section AssocMap

variable {β : Type}

/-- Property read `obj[key]` on a JS object embedded as an association list. -/
def lookupH : List (String × β) → String → Option β
  | [], _ => none
  | p :: rest, k => if p.1 = k then some p.2 else lookupH rest k

/-- Property write `obj[key] = v`: replaces an existing binding, else appends. -/
def setH : List (String × β) → String → β → List (String × β)
  | [], k, v => [(k, v)]
  | p :: rest, k, v => if p.1 = k then (k, v) :: rest else p :: setH rest k v

theorem lookupH_setH_self (hs : List (String × β)) (k : String) (v : β) :
    lookupH (setH hs k v) k = some v := by
  induction hs with
  | nil => simp [setH, lookupH]
  | cons p rest ih =>
    by_cases h : p.1 = k
    · simp [setH, lookupH, h]
    · simp [setH, lookupH, h, ih]

theorem lookupH_eq_none_iff (hs : List (String × β)) (k : String) :
    lookupH hs k = none ↔ k ∉ hs.map Prod.fst := by
  induction hs with
  | nil => simp [lookupH]
  | cons p rest ih =>
    by_cases h : p.1 = k
    · simp [lookupH, h]
    · simp [lookupH, h, ih]
      intro hk
      exact fun he => h he.symm

theorem setH_eq_append (hs : List (String × β)) (k : String) (v : β)
    (h : lookupH hs k = none) : setH hs k v = hs ++ [(k, v)] := by
  induction hs with
  | nil => simp [setH]
  | cons p rest ih =>
    by_cases hp : p.1 = k
    · simp [lookupH, hp] at h
    · simp [lookupH, hp] at h
      simp [setH, hp, ih h]

theorem lookupH_append (xs ys : List (String × β)) (k : String) :
    lookupH (xs ++ ys) k =
      match lookupH xs k with
      | some v => some v
      | none => lookupH ys k := by
  induction xs with
  | nil => simp [lookupH]
  | cons p rest ih =>
    by_cases h : p.1 = k
    · simp [lookupH, h]
    · simp [lookupH, h, ih]

theorem lookupH_of_mem_nodup (hs : List (String × β)) (k : String) (v : β)
    (hmem : (k, v) ∈ hs) (hnd : (hs.map Prod.fst).Nodup) :
    lookupH hs k = some v := by
  induction hs with
  | nil => simp at hmem
  | cons p rest ih =>
    simp only [List.map_cons, List.nodup_cons] at hnd
    rcases List.mem_cons.mp hmem with h | h
    · subst h
      simp [lookupH]
    · have hk : p.1 ≠ k := by
        intro he
        exact hnd.1 (he ▸ (List.mem_map.mpr ⟨(k, v), h, rfl⟩))
      simp [lookupH, hk, ih h hnd.2]

end AssocMap

/-- Index of the first occurrence of a string in a list, embedding the JS
`Array.prototype.indexOf` (with `none` standing for `-1`). -/
def idxOf? : List String → String → Option Nat
  | [], _ => none
  | s :: rest, t => if s = t then some 0 else (idxOf? rest t).map Nat.succ

theorem idxOf?_eq_none_of_not_mem (l : List String) (t : String) (h : t ∉ l) :
    idxOf? l t = none := by
  induction l with
  | nil => rfl
  | cons s rest ih =>
    simp only [List.mem_cons, not_or] at h
    have hs : s ≠ t := fun he => h.1 he.symm
    simp [idxOf?, hs, ih h.2]

theorem idxOf?_append_cons (pre : List String) (t : String) (post : List String)
    (hnd : (pre ++ t :: post).Nodup) :
    idxOf? (pre ++ t :: post) t = some pre.length := by
  induction pre with
  | nil => simp [idxOf?]
  | cons s rest ih =>
    simp only [List.cons_append, List.nodup_cons] at hnd
    have hs : s ≠ t := by
      intro he
      exact hnd.1 (he ▸ (by simp : t ∈ rest ++ t :: post))
    simp [idxOf?, hs, ih hnd.2]

/-! ## Action (src/unnamed/part_000, first document, lines 24-99)

An `Action` owns `_subActions`; `cancel()` recursively cancels every
tracked sub-action and then emits `cancel` on itself; `emitSuccess` and
`emitError` forward to `emit` unconditionally — the constructor stores no
cancellation flag and neither emitter consults one. -/

namespace Action

/-- One-shot events an Action can emit. -/
inductive AEvent where
  | success (args : List Val)
  | error (args : List Val)
  | cancel
deriving DecidableEq

/-- The ownership tree of an Action: its id and its tracked `_subActions`. -/
inductive ActionT where
  | mk (id : Nat) (subs : List ActionT)

mutual

/-- The ids receiving a `cancel` emission when `cancel()` runs on the root:
`this._subActions.forEach(function(s){ s.cancel(); }); this.emit('cancel')`. -/
def cancelEmits : ActionT → List Nat
  | .mk i subs => cancelEmitsList subs ++ [i]

def cancelEmitsList : List ActionT → List Nat
  | [] => []
  | a :: rest => cancelEmits a ++ cancelEmitsList rest

end

mutual

/-- All ids in an action tree (the node itself and its descendants). -/
def allIds : ActionT → List Nat
  | .mk i subs => i :: allIdsList subs

def allIdsList : List ActionT → List Nat
  | [] => []
  | a :: rest => allIds a ++ allIdsList rest

end

/-- The tracked descendants of an action: every id below the root. -/
def descendants : ActionT → List Nat
  | .mk _ subs => allIdsList subs

mutual

theorem mem_cancelEmits_of_mem_allIds (a : ActionT) :
    ∀ x, x ∈ allIds a → x ∈ cancelEmits a := by
  match a with
  | .mk i subs =>
    intro x hx
    simp only [allIds, List.mem_cons] at hx
    simp only [cancelEmits, List.mem_append, List.mem_singleton]
    rcases hx with h | h
    · exact Or.inr h
    · exact Or.inl (mem_cancelEmitsList_of_mem_allIdsList subs x h)

theorem mem_cancelEmitsList_of_mem_allIdsList (l : List ActionT) :
    ∀ x, x ∈ allIdsList l → x ∈ cancelEmitsList l := by
  match l with
  | [] => intro x hx; simp [allIdsList] at hx
  | a :: rest =>
    intro x hx
    simp only [allIdsList, List.mem_append] at hx
    simp only [cancelEmitsList, List.mem_append]
    rcases hx with h | h
    · exact Or.inl (mem_cancelEmits_of_mem_allIds a x h)
    · exact Or.inr (mem_cancelEmitsList_of_mem_allIdsList rest x h)

end

/-- Operations a client can invoke on a single Action after construction. -/
inductive AOp where
  | cancelOp
  | emitSuccessOp (args : List Val)
  | emitErrorOp (args : List Val)
deriving DecidableEq

/-- The event log produced by a sequence of operations on one Action.
Transcribed from `Action.prototype.cancel` / `emitSuccess` / `emitError`:
each one forwards to `emit` unconditionally; no field of the Action is
consulted or updated, so the log is a plain map over the operations. -/
def runOps : List AOp → List AEvent
  | [] => []
  | .cancelOp :: rest => AEvent.cancel :: runOps rest
  | .emitSuccessOp a :: rest => AEvent.success a :: runOps rest
  | .emitErrorOp a :: rest => AEvent.error a :: runOps rest

/-- State of a parent action relevant to `addAction` (lines 47-63):
its tracked sub-action ids, the ids it has started, and the ids for which a
bubbling error listener was attached. -/
structure ParentState where
  subActions : List Nat
  startedSubs : List Nat
  bubbleListeners : List Nat
deriving DecidableEq

/-- `Action.prototype.addAction(subAction, opts)`: pushes the sub-action,
attaches the bubbling error listener when `opts.bubbleErrors`, then starts
the sub-action. -/
def addAction (p : ParentState) (sub : Nat) (bubbleErrors : Bool) : ParentState :=
  let p1 : ParentState := { p with subActions := p.subActions ++ [sub] }
  let p2 : ParentState :=
    if bubbleErrors then { p1 with bubbleListeners := p1.bubbleListeners ++ [sub] } else p1
  { p2 with startedSubs := p2.startedSubs ++ [sub] }

/-- Effect of a sub-action's `error` event on the parent, per the listener
installed by `addAction`: if a bubbling listener is attached for the failing
sub-action, every *other* tracked sub-action is cancelled and the error is
re-emitted on the parent with the same arguments; otherwise nothing happens.
Returns (ids receiving `cancel()`, events emitted on the parent). -/
def bubbleError (p : ParentState) (failing : Nat) (args : List Val) :
    List Nat × List AEvent :=
  if failing ∈ p.bubbleListeners then
    (p.subActions.filter (fun a => a ≠ failing), [AEvent.error args])
  else ([], [])

/-- Report produced when `emitError` fires on an Action, per the listener the
constructor installs (lines 30-39): with no user error listeners the built-in
listener is the only one, so it logs the stack when present, logs the
unhandled-error message, and throws; otherwise the user listeners receive the
event and nothing is logged or thrown. -/
structure ErrReport where
  logged : List String
  thrown : Option String
  deliveredTo : Nat
deriving DecidableEq

/-- Dispatch of an `error` emission given the number of user error listeners. -/
def emitErrorDispatch (userListeners : Nat) (e : JsErr) : ErrReport :=
  if userListeners = 0 then
    { logged := stackList e ++ ["Unhandled error in action: " ++ e.msg]
      thrown := some ("Unhandled error in action: " ++ e.msg)
      deliveredTo := 0 }
  else
    { logged := [], thrown := none, deliveredTo := userListeners }

end Action

/-! ## StateMachine (src/unnamed/part_000, first document, lines 104-173) -/

namespace StateMachine

/-- Options passed to `StateMachine.prototype.transition`.  `none` in
`success`/`error` means the key was not supplied; `some ""` embeds an
explicitly supplied falsy target (JS `''`/`null`). -/
structure SMOpts where
  action : Nat
  success : Option String
  error : Option String
  data : Option Val
deriving DecidableEq

/-- Truthiness of a possibly-absent string option after JS coercion. -/
def truthyStr : Option String → Bool
  | some s => s ≠ ""
  | none => false

/-- The wiring `transition` performs: which listeners are attached and with
which target states, whether the action is registered as a tracked
sub-action, and the `bubbleErrors` flag passed to `addAction`. -/
structure SMWiring where
  successTarget : Option String
  errorListenerAttached : Bool
  errorTarget : Option String
  addedAsSub : Bool
  bubbleErrors : Bool
  extraData : Option Val
deriving DecidableEq

/-- Modelled from the spec: the `mixin` helper used by
`StateMachine.prototype.transition` is not among the source files; per the
spec signature `transition({action, success='success', error='error', data})`
it fills in the defaults `success: 'success'` and `error: 'error'` for keys
the caller did not supply, keeping the caller's values otherwise. -/
def mixinDefaults (o : SMOpts) : String × String :=
  (match o.success with | some s => s | none => "success",
   match o.error with | some s => s | none => "error")

/-- `StateMachine.prototype.transition(opts)` (lines 122-151): after the
defaults are mixed in, a success listener is always attached (it sets the
state only when the target is truthy); an error listener is attached only
when the defaulted error target is truthy; finally the action is registered
via `addAction` with `bubbleErrors: !opts.error` evaluated on the already
defaulted `opts.error`. -/
def transition (o : SMOpts) : SMWiring :=
  let d := mixinDefaults o
  { successTarget := if d.1 ≠ "" then some d.1 else none
    errorListenerAttached := d.2 ≠ ""
    errorTarget := if d.2 ≠ "" then some d.2 else none
    addedAsSub := true
    bubbleErrors := d.2 = ""
    extraData := o.data }

/-- `StateMachine.prototype.addState(state, handler)` (lines 114-120) over a
handler map and a log of warnings: a second registration of an existing name
logs a warning and leaves the map unchanged. -/
def addState (hs : List (String × Nat)) (warnings : List String)
    (name : String) (h : Nat) : List (String × Nat) × List String :=
  match lookupH hs name with
  | some _ =>
    (hs, warnings ++ ["Warning: a handler for " ++ name ++ " has already been defined."])
  | none => (setH hs name h, warnings)

end StateMachine

/-! ## TransitionQueue (src/unnamed/part_000, first document, lines 178-228) -/

namespace TransitionQueue

/-- A transition spec held by a queue: `{action, success?, error?, data?}`.
`none` means the key was not supplied; `some ""` a supplied falsy value. -/
structure TSpec where
  action : Nat
  success : Option String
  error : Option String
  data : Option Val
deriving DecidableEq

/-- Queue state: its spec list, the start-once latch, the completion counter
of the current run and the number of times `transitionTo(finalState)` has
been invoked on the bound machine. -/
structure QState where
  transitions : List TSpec
  started : Bool
  completedItems : Nat
  finalFires : Nat
deriving DecidableEq

/-- `TransitionQueue.prototype.start` (lines 189-215): marks the queue
started, zeroes the counter, and — when the spec list is empty — immediately
transitions the machine to the final state.  (Wiring each spec through
`stateMachine.transition` attaches the counting listeners modelled by
`processEvent`.) -/
def start (q : QState) : QState :=
  let q1 : QState := { q with started := true, completedItems := 0 }
  if q1.transitions.length = 0 then { q1 with finalFires := q1.finalFires + 1 } else q1

/-- Whether a spec's terminal event is counted by the queue's listener:
`if (!transition[event] && 'success' != event) return;` — a success is
always counted, an error only when the spec supplied a truthy error target. -/
def counted (t : TSpec) (isSuccess : Bool) : Bool :=
  if isSuccess then true else StateMachine.truthyStr t.error

/-- The counting listener attached by `start` for spec index `i`, fired with
outcome `isSuccess`: counted events increment `completedItems`, and when the
counter reaches the spec count the machine is sent to the final state. -/
def processEvent (q : QState) (ev : Nat × Bool) : QState :=
  match q.transitions[ev.1]? with
  | none => q
  | some t =>
    if counted t ev.2 then
      let c := q.completedItems + 1
      { q with
        completedItems := c
        finalFires := if c = q.transitions.length then q.finalFires + 1 else q.finalFires }
    else q

/-- Processing a list of terminal events in arrival order. -/
def processEvents (q : QState) (evs : List (Nat × Bool)) : QState :=
  evs.foldl processEvent q

end TransitionQueue

/-! ## The sequencer NobleMachine
(src/noblemachine.js; src/unnamed/part_000, second document, lines 561-850)

The embedding follows the second document's version, which carries the
always-wait marker (`funcOrAct.wait`) in `makeHandler`; src/noblemachine.js
is identical except that its `makeHandler` omits the wait check and its
`complete` handler omits the `me.running` guard before `emitSuccess` —
differences that do not affect the runs proved below (all waits are `false`
and `running` is `true` on entry to `complete` there).

State handlers are stored unwrapped as `FuncOrAct` values and the
`makeHandler` wrapper is applied at invocation time inside `go`; this is
observationally the same as storing `makeHandler(funcOrAct)` and keeps
handlers comparable.  Handler function bodies are defunctionalized into
`FnBody`: the bodies the theorems need are the no-op function, a function
that throws, a function that calls `emitSuccess` directly, and the two
built-in `complete`/`error` handler bodies from the constructor. -/

namespace NobleMachine

/-- An argument value flowing between states: a plain value or a startable
action (anything with `start instanceof Function`). -/
inductive Arg where
  | v (x : Val)
  | act (id : Nat)
deriving DecidableEq

/-- A terminal emission of the machine. -/
inductive Emission where
  | success (args : List Arg)
  | error (args : List Arg)
deriving DecidableEq

/-- Defunctionalized bodies of plain-function state handlers. -/
inductive FnBody where
  | noop
  | throwE (e : JsErr)
  | emitS (args : List Arg)
  | completeBody
  | errorBody
deriving DecidableEq

/-- The `funcOrAct` value a state was declared with: a plain function
(carrying its `wait` marker), a startable action, a plain value, or
`undefined`. -/
inductive FuncOrAct where
  | fn (wait : Bool) (body : FnBody)
  | act (id : Nat)
  | val (x : Val)
  | undef
deriving DecidableEq

/-- A pending async transition recorded by `transition(opts)`: the started
action and the (defaulted) success/error target states. -/
structure PendingT where
  action : Nat
  successT : String
  errorT : String
  argdata : List Arg
deriving DecidableEq

/-- The observable state of a sequencer machine.  `trace` records the state
names whose handlers `go` has invoked, `exitRuns` counts invocations of the
`ensure` hook, `emitted` the machine's terminal emissions and
`loggedStacks` the stack traces passed to the logger. -/
structure Machine where
  handlers : List (String × FuncOrAct)
  stateSequence : List String
  stateIndex : Int
  state : Option String
  transitioning : Bool
  running : Bool
  completeHandlerP : Bool
  errorHandlerP : Bool
  exitHandler : Bool
  trace : List String
  exitRuns : Nat
  emitted : List Emission
  loggedStacks : List String
  pendingTransition : Option PendingT
  startedActs : List Nat
deriving DecidableEq

/-- `emitSuccess`: marks the machine finished and emits `success`. -/
def emitSuccess (m : Machine) (args : List Arg) : Machine :=
  { m with running := false, emitted := m.emitted ++ [Emission.success args] }

/-- `emitError`: marks the machine finished and emits `error`. -/
def emitError (m : Machine) (args : List Arg) : Machine :=
  { m with running := false, emitted := m.emitted ++ [Emission.error args] }

/-- `onExit()`: runs the exit handler when one was registered; its return
value is discarded. -/
def onExit (m : Machine) : Machine :=
  if m.exitHandler then { m with exitRuns := m.exitRuns + 1 } else m

/-- Result of applying a handler function body: normal return or a thrown
exception. -/
inductive ApplyResult where
  | ok (m : Machine)
  | thrown (m : Machine) (e : JsErr)
deriving DecidableEq

/-- Application of a defunctionalized handler body.  `completeBody` and
`errorBody` transcribe the two built-in states registered by the
constructor: run the user handler if assigned (modelled as a no-op),
run `onExit`, then emit the machine's own terminal event unless a user
handler was assigned (for `complete` additionally only while `running`). -/
def applyBody (b : FnBody) (m : Machine) (args : List Arg) : ApplyResult :=
  match b with
  | .noop => .ok m
  | .throwE e => .thrown m e
  | .emitS as => .ok (emitSuccess m as)
  | .completeBody =>
    let m1 := onExit m
    .ok (if m1.running = true ∧ m1.completeHandlerP = false then emitSuccess m1 args else m1)
  | .errorBody =>
    let m1 := onExit m
    .ok (if m1.errorHandlerP = false then emitError m1 args else m1)

/-- A state designator: a name or a main-sequence index
(`findState(nameOrIndex)`). -/
inductive StateRef where
  | byName (s : String)
  | byIndex (i : Nat)
deriving DecidableEq

/-- `findState`: a string designates itself, an index is looked up in the
main sequence (`none` embeds JS `undefined` for an out-of-range index). -/
def findState (m : Machine) : StateRef → Option String
  | .byName s => some s
  | .byIndex i => m.stateSequence[i]?

/-- `transition(opts)` as invoked from `toState` with a startable first
argument: defaults the targets (`opts.error = opts.error || 'error'`,
`opts.success = opts.success || 'complete'`), attaches the listeners,
sets `transitioning` and starts the action.  The machine then suspends
until the action reports, which the synchronous runs below never reach. -/
def transition (m : Machine) (aid : Nat) (succ : Option String) (argdata : List Arg) :
    Machine :=
  let succT := match succ with
    | some s => if s = "" then "complete" else s
    | none => "complete"
  { m with
    transitioning := true
    pendingTransition := some { action := aid, successT := succT, errorT := "error", argdata := argdata }
    startedActs := m.startedActs ++ [aid] }

/-- The placeholder for the `TypeError` JS raises when `go` applies a
missing handler (`me.handlers[me.state]` undefined); this branch is not
exercised by any theorem below. -/
def typeErrorJs : JsErr := { msg := "TypeError: handler is not a function", stack := none }

/-- `runState(nameOrIndex, args)` parameterized by the continuation that
runs `go`: set `state`, refresh `stateIndex` when the new state occurs in
the main sequence, then `go`. -/
def runStateWith (goFn : Machine → Option (List Arg) → Machine) (m : Machine)
    (st : Option String) (args : Option (List Arg)) : Machine :=
  let m1 : Machine := { m with state := st }
  let m2 : Machine :=
    match st with
    | some s =>
      match idxOf? m1.stateSequence s with
      | some i => { m1 with stateIndex := (i : Int) }
      | none => m1
    | none => m1
  goFn m2 args

/-- `toState(nameOrIndex, ...)`: with no extra arguments runs the state
directly; with a startable first argument wires it through `transition`
(success target = the state, remaining arguments as `argdata`); otherwise
runs the state with the arguments. -/
def toStateWith (goFn : Machine → Option (List Arg) → Machine) (m : Machine)
    (target : StateRef) (args : List Arg) : Machine :=
  let st := findState m target
  match args with
  | [] => runStateWith goFn m st none
  | a :: rest =>
    match a with
    | .act aid => transition m aid st rest
    | .v _ => runStateWith goFn m st (some args)

/-- `toComplete(...)`: jump to the reserved `complete` state. -/
def toCompleteWith (goFn : Machine → Option (List Arg) → Machine) (m : Machine)
    (args : List Arg) : Machine :=
  toStateWith goFn m (.byName "complete") args

/-- `toError(...)`: jump to the reserved `error` state. -/
def toErrorWith (goFn : Machine → Option (List Arg) → Machine) (m : Machine)
    (args : List Arg) : Machine :=
  toStateWith goFn m (.byName "error") args

/-- `toNext(...)`: target index `stateIndex + 1`, or `complete` past the
end of the main sequence. -/
def toNextWith (goFn : Machine → Option (List Arg) → Machine) (m : Machine)
    (args : List Arg) : Machine :=
  let n : Int := m.stateIndex + 1
  if n < (m.stateSequence.length : Int) then
    toStateWith goFn m (.byIndex n.toNat) args
  else
    toCompleteWith goFn m args

/-- `go(args)` with fuel bounding the depth of nested synchronous
transitions (each nested `go` consumes one unit; with fuel `0` the machine
is returned unchanged, and every theorem below supplies enough fuel).

Transcription: look up the current state's handler; apply the `makeHandler`
wrapper to it inside a `try`; on a thrown exception log the stack when
present, then emit the error directly when already in the `error` state and
jump to the `error` state otherwise.

The wrapper (`makeHandler(funcOrAct)`) records the state at entry, then:
`undefined` → `toNext()`; a plain function → apply it, and when it has no
wait marker, left the state unchanged, started no async transition and the
machine is still running, `toNext()`; anything else → `toNext(funcOrAct)`. -/
def goF : Nat → Machine → Option (List Arg) → Machine
  | 0, m, _ => m
  | fuel + 1, m, args =>
    match m.state.bind (fun s => lookupH m.handlers s) with
    | none =>
      let m1 : Machine := { m with loggedStacks := m.loggedStacks ++ stackList typeErrorJs }
      if m1.state = some "error" then emitError m1 [Arg.v (Val.err typeErrorJs)]
      else toErrorWith (goF fuel) m1 [Arg.v (Val.err typeErrorJs)]
    | some foa =>
      let m1 : Machine :=
        { m with trace := m.trace ++ [match m.state with | some s => s | none => ""] }
      let entry := m1.state
      match foa with
      | .undef => toNextWith (goF fuel) m1 []
      | .val x => toNextWith (goF fuel) m1 [Arg.v x]
      | .act aid => toNextWith (goF fuel) m1 [Arg.act aid]
      | .fn w b =>
        match applyBody b m1 (args.getD []) with
        | .ok m2 =>
          if w = false ∧ m2.state = entry ∧ m2.transitioning = false ∧ m2.running = true then
            toNextWith (goF fuel) m2 []
          else m2
        | .thrown m2 e =>
          let m3 : Machine := { m2 with loggedStacks := m2.loggedStacks ++ stackList e }
          if m3.state = some "error" then emitError m3 [Arg.v (Val.err e)]
          else toErrorWith (goF fuel) m3 [Arg.v (Val.err e)]

/-- `addState(name, funcOrAct)`: registers (or overwrites) the handler for
a name without placing it in the main sequence. -/
def addState (m : Machine) (name : String) (foa : FuncOrAct) : Machine :=
  { m with handlers := setH m.handlers name foa }

/-- `nextState(name, funcOrAct)`: registers the handler and appends the
name to the main sequence. -/
def nextState (m : Machine) (name : String) (foa : FuncOrAct) : Machine :=
  let m1 := addState m name foa
  { m1 with stateSequence := m1.stateSequence ++ [name] }

/-- Declare a list of named steps in order via `nextState`. -/
def addSteps (m : Machine) (steps : List (String × FuncOrAct)) : Machine :=
  steps.foldl (fun acc p => nextState acc p.1 p.2) m

/-- `ensure(handler)`: registers the exit hook. -/
def ensure (m : Machine) : Machine :=
  { m with exitHandler := true }

/-- The machine as the constructor leaves it (before any user steps): empty
sequence, `stateIndex = -1`, and the built-in `complete` and `error`
states registered through `addState`. -/
def emptyMachine : Machine :=
  addState
    (addState
      { handlers := [], stateSequence := [], stateIndex := -1, state := none
        transitioning := false, running := false, completeHandlerP := false
        errorHandlerP := false, exitHandler := false, trace := [], exitRuns := 0
        emitted := [], loggedStacks := [], pendingTransition := none, startedActs := [] }
      "complete" (.fn false .completeBody))
    "error" (.fn false .errorBody)

/-- `start()`: set `running` and (on the next tick) `toNext()`. -/
def start (fuel : Nat) (m : Machine) : Machine :=
  toNextWith (goF fuel) { m with running := true } []

/-- A machine declaring the given step names in order, each with a plain
no-op function body (no asynchronous work, no explicit jumps). -/
def classM (names : List String) : Machine :=
  addSteps emptyMachine (names.map (fun n => (n, FuncOrAct.fn false FnBody.noop)))

/-- A machine declaring `pre`, then a step `t` whose plain function throws
`e`, then `post`, all other steps no-ops. -/
def failM (pre : List String) (t : String) (e : JsErr) (post : List String) : Machine :=
  addSteps emptyMachine
    (pre.map (fun n => (n, FuncOrAct.fn false FnBody.noop)) ++
      (t, FuncOrAct.fn false (FnBody.throwE e)) ::
      post.map (fun n => (n, FuncOrAct.fn false FnBody.noop)))

end NobleMachine

namespace NobleMachine

/-! ### Shape lemmas for the machine builders -/

theorem map_fst_pairs (c : FuncOrAct) (l : List String) :
    (l.map (fun n => (n, c))).map Prod.fst = l := by
  induction l with
  | nil => rfl
  | cons x xs ih => simp [ih]

theorem map_fst_comp_pairs (c : FuncOrAct) (l : List String) :
    List.map (Prod.fst ∘ fun n => (n, c)) l = l := by
  induction l with
  | nil => rfl
  | cons x xs ih => simp only [List.map_cons, ih, Function.comp_apply]

theorem map_fst_throw_pairs (pre : List String) (t : String) (e : JsErr) (post : List String) :
    ((pre.map (fun n => (n, FuncOrAct.fn false FnBody.noop)) ++
      (t, FuncOrAct.fn false (FnBody.throwE e)) ::
      post.map (fun n => (n, FuncOrAct.fn false FnBody.noop))).map Prod.fst) =
      pre ++ t :: post := by
  simp [map_fst_comp_pairs]

theorem addSteps_norm (steps : List (String × FuncOrAct)) :
    ∀ (m : Machine),
    (∀ p ∈ steps, lookupH m.handlers p.1 = none) →
    (steps.map Prod.fst).Nodup →
    addSteps m steps =
      { m with handlers := m.handlers ++ steps,
               stateSequence := m.stateSequence ++ steps.map Prod.fst } := by
  induction steps with
  | nil =>
    intro m _ _
    simp [addSteps]
  | cons p rest ih =>
    intro m hfresh hnd
    have hp : lookupH m.handlers p.1 = none := hfresh p (by simp)
    simp only [List.map_cons, List.nodup_cons] at hnd
    have hne : nextState m p.1 p.2 =
        { m with handlers := m.handlers ++ [p],
                 stateSequence := m.stateSequence ++ [p.1] } := by
      simp [nextState, addState, setH_eq_append _ _ _ hp]
    have hfresh' : ∀ q ∈ rest, lookupH (m.handlers ++ [p]) q.1 = none := by
      intro q hq
      have h1 : lookupH m.handlers q.1 = none := hfresh q (by simp [hq])
      have h2 : p.1 ≠ q.1 := by
        intro he
        exact hnd.1 (he ▸ List.mem_map.mpr ⟨q, hq, rfl⟩)
      rw [lookupH_append, h1]
      simp [lookupH, h2]
    have := ih { m with handlers := m.handlers ++ [p],
                        stateSequence := m.stateSequence ++ [p.1] } hfresh' hnd.2
    simp only [addSteps, List.foldl_cons] at *
    rw [hne, this]
    simp [List.append_assoc]

/-- Keys of the handler map left by the constructor. -/
theorem emptyMachine_handlers :
    emptyMachine.handlers =
      [("complete", FuncOrAct.fn false FnBody.completeBody),
       ("error", FuncOrAct.fn false FnBody.errorBody)] := by
  decide

theorem emptyMachine_eq :
    emptyMachine =
      { handlers := [("complete", FuncOrAct.fn false FnBody.completeBody),
                     ("error", FuncOrAct.fn false FnBody.errorBody)]
        stateSequence := [], stateIndex := -1, state := none
        transitioning := false, running := false, completeHandlerP := false
        errorHandlerP := false, exitHandler := false, trace := [], exitRuns := 0
        emitted := [], loggedStacks := [], pendingTransition := none
        startedActs := [] } := by
  decide

theorem classM_norm (names : List String) (hnd : names.Nodup)
    (hc : "complete" ∉ names) (he : "error" ∉ names) :
    classM names =
      { handlers := [("complete", FuncOrAct.fn false FnBody.completeBody),
                     ("error", FuncOrAct.fn false FnBody.errorBody)] ++
          names.map (fun n => (n, FuncOrAct.fn false FnBody.noop))
        stateSequence := names, stateIndex := -1, state := none
        transitioning := false, running := false, completeHandlerP := false
        errorHandlerP := false, exitHandler := false, trace := [], exitRuns := 0
        emitted := [], loggedStacks := [], pendingTransition := none
        startedActs := [] } := by
  have hfresh : ∀ p ∈ names.map (fun n => (n, FuncOrAct.fn false FnBody.noop)),
      lookupH emptyMachine.handlers p.1 = none := by
    intro p hp
    rcases List.mem_map.mp hp with ⟨n, hn, rfl⟩
    rw [emptyMachine_handlers]
    have h1 : n ≠ "complete" := fun hx => hc (hx ▸ hn)
    have h2 : n ≠ "error" := fun hx => he (hx ▸ hn)
    simp [lookupH, Ne.symm h1, Ne.symm h2]
  have hnd' : ((names.map (fun n => (n, FuncOrAct.fn false FnBody.noop))).map Prod.fst).Nodup := by
    rw [map_fst_pairs]
    exact hnd
  rw [classM, addSteps_norm _ _ hfresh hnd', emptyMachine_eq]
  simp [map_fst_comp_pairs]

theorem failM_norm (pre : List String) (t : String) (e : JsErr) (post : List String)
    (hnd : (pre ++ t :: post).Nodup)
    (hc : "complete" ∉ pre ++ t :: post) (he : "error" ∉ pre ++ t :: post) :
    failM pre t e post =
      { handlers := [("complete", FuncOrAct.fn false FnBody.completeBody),
                     ("error", FuncOrAct.fn false FnBody.errorBody)] ++
          (pre.map (fun n => (n, FuncOrAct.fn false FnBody.noop)) ++
            (t, FuncOrAct.fn false (FnBody.throwE e)) ::
            post.map (fun n => (n, FuncOrAct.fn false FnBody.noop)))
        stateSequence := pre ++ t :: post, stateIndex := -1, state := none
        transitioning := false, running := false, completeHandlerP := false
        errorHandlerP := false, exitHandler := false, trace := [], exitRuns := 0
        emitted := [], loggedStacks := [], pendingTransition := none
        startedActs := [] } := by
  set steps := pre.map (fun n => (n, FuncOrAct.fn false FnBody.noop)) ++
    (t, FuncOrAct.fn false (FnBody.throwE e)) ::
    post.map (fun n => (n, FuncOrAct.fn false FnBody.noop)) with hsteps
  have hkeys : steps.map Prod.fst = pre ++ t :: post := by
    rw [hsteps]
    exact map_fst_throw_pairs pre t e post
  have hfresh : ∀ p ∈ steps, lookupH emptyMachine.handlers p.1 = none := by
    intro p hp
    have hpk : p.1 ∈ pre ++ t :: post := by
      rw [← hkeys]
      exact List.mem_map.mpr ⟨p, hp, rfl⟩
    rw [emptyMachine_handlers]
    have h1 : p.1 ≠ "complete" := fun hx => hc (hx ▸ hpk)
    have h2 : p.1 ≠ "error" := fun hx => he (hx ▸ hpk)
    simp [lookupH, Ne.symm h1, Ne.symm h2]
  have hnd' : (steps.map Prod.fst).Nodup := by rw [hkeys]; exact hnd
  rw [failM, addSteps_norm _ _ hfresh hnd', emptyMachine_eq]
  simp [hkeys]

end NobleMachine

namespace NobleMachine

/-- One synchronous auto-advance step: from the configuration just before
declared step `r` (at index `pre.length`), a no-op plain-function handler is
invoked and the machine immediately advances via `toNext()` with no
arguments. -/
theorem step_noop (f : Nat) (m : Machine) (pre : List String) (r : String)
    (rs : List String)
    (hseq : m.stateSequence = pre ++ r :: rs)
    (hidx : m.stateIndex = (pre.length : Int) - 1)
    (hrun : m.running = true)
    (htr : m.transitioning = false)
    (hlook : lookupH m.handlers r = some (FuncOrAct.fn false FnBody.noop))
    (hidxOf : idxOf? m.stateSequence r = some pre.length) :
    toNextWith (goF (f + 1)) m [] =
      toNextWith (goF f)
        { m with state := some r, stateIndex := (pre.length : Int),
                 trace := m.trace ++ [r] } [] := by
  have hlen : (m.stateIndex + 1 : Int) < (m.stateSequence.length : Int) := by
    rw [hseq, hidx]
    simp only [List.length_append, List.length_cons]
    omega
  have htn : (m.stateIndex + 1).toNat = pre.length := by
    rw [hidx]
    omega
  have hget : m.stateSequence[(m.stateIndex + 1).toNat]? = some r := by
    rw [htn, hseq]
    rw [List.getElem?_append_right (Nat.le_refl pre.length)]
    simp
  conv_lhs => rw [toNextWith]
  rw [if_pos hlen]
  rw [toStateWith]
  simp only [findState, hget]
  rw [runStateWith]
  simp only [hidxOf]
  rw [goF]
  simp only [Option.bind_some, Option.some_bind, hlook]
  simp only [applyBody]
  simp [htr, hrun, htn]

/-- A run of declared no-op steps: from the configuration just before the
remaining steps `rest`, the machine invokes each remaining handler in
declared order, lands in `complete`, runs the exit hook if registered and
emits its own success. -/
theorem run_noops_to_complete (rest : List String) :
    ∀ (pre : List String) (m : Machine) (f : Nat),
    m.stateSequence = pre ++ rest →
    m.stateIndex = (pre.length : Int) - 1 →
    m.running = true →
    m.transitioning = false →
    m.completeHandlerP = false →
    (∀ r ∈ rest, lookupH m.handlers r = some (FuncOrAct.fn false FnBody.noop)) →
    lookupH m.handlers "complete" = some (FuncOrAct.fn false FnBody.completeBody) →
    (pre ++ rest).Nodup →
    "complete" ∉ pre ++ rest →
    rest.length + 2 ≤ f →
    toNextWith (goF f) m [] =
      { m with state := some "complete",
               stateIndex := ((pre ++ rest).length : Int) - 1,
               running := false,
               trace := m.trace ++ rest ++ ["complete"],
               emitted := m.emitted ++ [Emission.success []],
               exitRuns := m.exitRuns + (if m.exitHandler then 1 else 0) } := by
  induction rest with
  | nil =>
    intro pre m f hseq hidx hrun htr hcompP hrest hlookC hnd hcm hfuel
    obtain ⟨g, rfl⟩ : ∃ g, f = g + 1 := ⟨f - 1, by omega⟩
    have hnotlt : ¬ ((m.stateIndex + 1 : Int) < (m.stateSequence.length : Int)) := by
      rw [hseq, hidx]
      simp only [List.append_nil]
      omega
    have hidx0 : idxOf? m.stateSequence "complete" = none := by
      apply idxOf?_eq_none_of_not_mem
      rw [hseq]
      exact hcm
    rw [toNextWith, if_neg hnotlt, toCompleteWith, toStateWith]
    simp only [findState]
    rw [runStateWith]
    simp only [hidx0]
    rw [goF]
    simp only [Option.some_bind, hlookC]
    simp only [applyBody, onExit]
    by_cases he : m.exitHandler
    · simp [he, emitSuccess, hrun, htr, hcompP, hidx]
    · simp [he, emitSuccess, hrun, htr, hcompP, hidx]
  | cons r rs ih =>
    intro pre m f hseq hidx hrun htr hcompP hrest hlookC hnd hcm hfuel
    obtain ⟨g, rfl⟩ : ∃ g, f = g + 1 := ⟨f - 1, by omega⟩
    have hndseq : (pre ++ r :: rs).Nodup := hnd
    have hstep := step_noop g m pre r rs hseq hidx hrun htr
      (hrest r (by simp))
      (by rw [hseq]; exact idxOf?_append_cons pre r rs hndseq)
    rw [hstep]
    have happly := ih (pre ++ [r])
      { m with state := some r, stateIndex := (pre.length : Int),
               trace := m.trace ++ [r] } g
      (by simpa [List.append_assoc] using hseq)
      (by simp [List.length_append])
      hrun htr hcompP
      (fun q hq => hrest q (by simp [hq]))
      hlookC
      (by simpa [List.append_assoc] using hnd)
      (by simpa [List.append_assoc] using hcm)
      (by simp at hfuel ⊢; omega)
    rw [happly]
    simp [List.append_assoc, List.length_append]

/-- A run of no-op steps into a throwing step: the machine invokes each
step of `mid` in order, then step `t` whose handler throws `e`; `go`
catches the exception, logs the stack when present, jumps to the built-in
`error` state with the exception as payload, runs the exit hook if
registered and emits the machine's own error with the original payload. -/
theorem run_noops_to_thrown (mid : List String) :
    ∀ (pre : List String) (m : Machine) (f : Nat) (t : String) (e : JsErr)
      (post : List String),
    m.stateSequence = pre ++ mid ++ t :: post →
    m.stateIndex = (pre.length : Int) - 1 →
    m.running = true →
    m.transitioning = false →
    m.errorHandlerP = false →
    (∀ r ∈ mid, lookupH m.handlers r = some (FuncOrAct.fn false FnBody.noop)) →
    lookupH m.handlers t = some (FuncOrAct.fn false (FnBody.throwE e)) →
    lookupH m.handlers "error" = some (FuncOrAct.fn false FnBody.errorBody) →
    (pre ++ mid ++ t :: post).Nodup →
    "error" ∉ pre ++ mid ++ t :: post →
    mid.length + 3 ≤ f →
    toNextWith (goF f) m [] =
      { m with state := some "error",
               stateIndex := ((pre ++ mid).length : Int),
               running := false,
               trace := m.trace ++ mid ++ [t, "error"],
               emitted := m.emitted ++ [Emission.error [Arg.v (Val.err e)]],
               exitRuns := m.exitRuns + (if m.exitHandler then 1 else 0),
               loggedStacks := m.loggedStacks ++ stackList e } := by
  induction mid with
  | nil =>
    intro pre m f t e post hseq hidx hrun htr herrP hmid hlookT hlookE hnd herr hfuel
    simp only [List.append_nil] at hseq hnd herr
    obtain ⟨g, rfl⟩ : ∃ g, f = g + 1 := ⟨f - 1, by omega⟩
    obtain ⟨h, rfl⟩ : ∃ h, g = h + 1 := ⟨g - 1, by omega⟩
    have hlen : (m.stateIndex + 1 : Int) < (m.stateSequence.length : Int) := by
      rw [hseq, hidx]
      simp only [List.length_append, List.length_cons]
      omega
    have htn : (m.stateIndex + 1).toNat = pre.length := by
      rw [hidx]
      omega
    have hget : m.stateSequence[(m.stateIndex + 1).toNat]? = some t := by
      rw [htn, hseq]
      rw [List.getElem?_append_right (Nat.le_refl pre.length)]
      simp
    have hidxT : idxOf? m.stateSequence t = some pre.length := by
      rw [hseq]
      exact idxOf?_append_cons pre t post hnd
    have htne : t ≠ "error" := by
      intro hx
      exact herr (hx ▸ (by simp : t ∈ pre ++ t :: post))
    have hidxE : idxOf? m.stateSequence "error" = none := by
      apply idxOf?_eq_none_of_not_mem
      rw [hseq]
      exact herr
    rw [toNextWith, if_pos hlen, toStateWith]
    simp only [findState, hget]
    rw [runStateWith]
    simp only [hidxT]
    rw [goF]
    simp only [Option.some_bind, hlookT]
    simp only [applyBody]
    simp [htne, htn]
    rw [toErrorWith, toStateWith]
    simp only [findState]
    rw [runStateWith]
    simp only [hidxE]
    rw [goF]
    simp only [Option.some_bind, hlookE]
    simp only [applyBody, onExit]
    by_cases hex : m.exitHandler
    · simp [hex, emitError, herrP, hidx, htne]
    · simp [hex, emitError, herrP, hidx, htne]
  | cons r rs ih =>
    intro pre m f t e post hseq hidx hrun htr herrP hmid hlookT hlookE hnd herr hfuel
    obtain ⟨g, rfl⟩ : ∃ g, f = g + 1 := ⟨f - 1, by omega⟩
    have hseq' : m.stateSequence = pre ++ r :: (rs ++ t :: post) := by
      simpa [List.append_assoc] using hseq
    have hnd' : (pre ++ r :: (rs ++ t :: post)).Nodup := by
      simpa [List.append_assoc] using hnd
    have hstep := step_noop g m pre r (rs ++ t :: post) hseq' hidx hrun htr
      (hmid r (by simp))
      (by rw [hseq']; exact idxOf?_append_cons pre r (rs ++ t :: post) hnd')
    rw [hstep]
    have happly := ih (pre ++ [r])
      { m with state := some r, stateIndex := (pre.length : Int),
               trace := m.trace ++ [r] } g t e post
      (by simpa [List.append_assoc] using hseq)
      (by simp [List.length_append])
      hrun htr herrP
      (fun q hq => hmid q (by simp [hq]))
      hlookT hlookE
      (by simpa [List.append_assoc] using hnd)
      (by simpa [List.append_assoc] using herr)
      (by simp at hfuel ⊢; omega)
    rw [happly]
    simp [List.append_assoc, List.length_append]

theorem lookupH_map_const {β : Type} (names : List String) (r : String) (c : β)
    (h : r ∈ names) : lookupH (names.map (fun n => (n, c))) r = some c := by
  induction names with
  | nil => simp at h
  | cons x xs ih =>
    by_cases hx : x = r
    · simp [lookupH, hx]
    · have : r ∈ xs := by
        rcases List.mem_cons.mp h with h1 | h1
        · exact absurd h1.symm hx
        · exact h1
      simp [lookupH, hx, ih this]

theorem lookupH_map_const_none (names : List String) (r : String) (c : FuncOrAct)
    (h : r ∉ names) : lookupH (names.map (fun n => (n, c))) r = none := by
  rw [lookupH_eq_none_iff, map_fst_pairs]
  exact h

/-- Handler lookups on the machine built by `classM`. -/
theorem classM_lookup_step (names : List String) (hnd : names.Nodup)
    (hc : "complete" ∉ names) (he : "error" ∉ names) (r : String) (hr : r ∈ names) :
    lookupH (classM names).handlers r = some (FuncOrAct.fn false FnBody.noop) := by
  rw [classM_norm names hnd hc he]
  have h1 : r ≠ "complete" := fun hx => hc (hx ▸ hr)
  have h2 : r ≠ "error" := fun hx => he (hx ▸ hr)
  simp only [lookupH_append]
  simp [lookupH, Ne.symm h1, Ne.symm h2, lookupH_map_const names r _ hr]

theorem failM_lookup (pre : List String) (t : String) (e : JsErr) (post : List String)
    (hnd : (pre ++ t :: post).Nodup)
    (hc : "complete" ∉ pre ++ t :: post) (he : "error" ∉ pre ++ t :: post) :
    (∀ r ∈ pre, lookupH (failM pre t e post).handlers r =
      some (FuncOrAct.fn false FnBody.noop)) ∧
    lookupH (failM pre t e post).handlers t =
      some (FuncOrAct.fn false (FnBody.throwE e)) ∧
    lookupH (failM pre t e post).handlers "error" =
      some (FuncOrAct.fn false FnBody.errorBody) := by
  rw [failM_norm pre t e post hnd hc he]
  refine ⟨?_, ?_, ?_⟩
  · intro r hr
    have hrm : r ∈ pre ++ t :: post := by simp [hr]
    have h1 : r ≠ "complete" := fun hx => hc (hx ▸ hrm)
    have h2 : r ≠ "error" := fun hx => he (hx ▸ hrm)
    simp only [lookupH_append]
    simp [lookupH, Ne.symm h1, Ne.symm h2, lookupH_map_const pre r _ hr]
  · have htm : t ∈ pre ++ t :: post := by simp
    have h1 : t ≠ "complete" := fun hx => hc (hx ▸ htm)
    have h2 : t ≠ "error" := fun hx => he (hx ▸ htm)
    have htp : t ∉ pre := by
      intro hx
      rcases List.nodup_append.mp hnd with ⟨_, _, hdisj⟩
      exact hdisj hx (by simp)
    simp only [lookupH_append]
    simp [lookupH, Ne.symm h1, Ne.symm h2,
      lookupH_map_const_none pre t _ htp]
  · simp [lookupH_append, lookupH]

/-- Claim C6: for a machine declaring `names` as plain no-op steps (no
asynchronous work, no explicit jumps), after `start` the machine reaches
the `complete` state after invoking exactly the `names.length` declared
handlers in declared order, and emits its success once. -/
theorem sequence_reaches_complete (names : List String) (f : Nat)
    (hnd : names.Nodup) (hc : "complete" ∉ names) (he : "error" ∉ names)
    (hf : names.length + 2 ≤ f) :
    (start f (classM names)).state = some "complete" ∧
    (start f (classM names)).trace = names ++ ["complete"] ∧
    (start f (classM names)).emitted = [Emission.success []] := by
  rw [start]
  have hrun := run_noops_to_complete names []
    { classM names with running := true } f
    (by rw [classM_norm names hnd hc he]; simp)
    (by rw [classM_norm names hnd hc he]; simp)
    rfl
    (by rw [classM_norm names hnd hc he])
    (by rw [classM_norm names hnd hc he])
    (fun r hr => classM_lookup_step names hnd hc he r hr)
    (by rw [classM_norm names hnd hc he]; simp [lookupH_append, lookupH])
    (by simpa using hnd)
    (by simpa using hc)
    hf
  rw [hrun]
  rw [classM_norm names hnd hc he]
  simp

theorem sequence_reaches_complete_witness :
    (["a", "b", "c"].Nodup ∧ "complete" ∉ ["a", "b", "c"] ∧
      "error" ∉ ["a", "b", "c"] ∧ ["a", "b", "c"].length + 2 ≤ 5) ∧
    ((start 5 (classM ["a", "b", "c"])).state = some "complete" ∧
      (start 5 (classM ["a", "b", "c"])).trace = ["a", "b", "c"] ++ ["complete"] ∧
      (start 5 (classM ["a", "b", "c"])).emitted = [Emission.success []]) :=
  ⟨by decide,
   sequence_reaches_complete ["a", "b", "c"] 5 (by decide) (by decide) (by decide)
     (by decide)⟩

/-- Claim C7: with an `ensure` hook registered, the hook runs exactly once
whether the machine ends in success (a full no-op run) or in error (a step
throwing mid-run with no custom error handler), and in the error case the
machine's emitted error carries the original exception payload, not the
hook's return value (which `onExit` discards). -/
theorem ensure_runs_once_error_payload_preserved
    (names pre post : List String) (t : String) (e : JsErr) (f g : Nat)
    (hnd1 : names.Nodup) (hc1 : "complete" ∉ names) (he1 : "error" ∉ names)
    (hf1 : names.length + 2 ≤ f)
    (hnd2 : (pre ++ t :: post).Nodup) (hc2 : "complete" ∉ pre ++ t :: post)
    (he2 : "error" ∉ pre ++ t :: post)
    (hf2 : pre.length + 3 ≤ g) :
    (start f (ensure (classM names))).exitRuns = 1 ∧
    (start f (ensure (classM names))).emitted = [Emission.success []] ∧
    (start g (ensure (failM pre t e post))).exitRuns = 1 ∧
    (start g (ensure (failM pre t e post))).emitted =
      [Emission.error [Arg.v (Val.err e)]] := by
  have hsucc := run_noops_to_complete names []
    { ensure (classM names) with running := true } f
    (by rw [ensure, classM_norm names hnd1 hc1 he1]; simp)
    (by rw [ensure, classM_norm names hnd1 hc1 he1]; simp)
    rfl
    (by rw [ensure, classM_norm names hnd1 hc1 he1])
    (by rw [ensure, classM_norm names hnd1 hc1 he1])
    (fun r hr => classM_lookup_step names hnd1 hc1 he1 r hr)
    (by rw [ensure, classM_norm names hnd1 hc1 he1]; simp [lookupH_append, lookupH])
    (by simpa using hnd1)
    (by simpa using hc1)
    hf1
  have hlk := failM_lookup pre t e post hnd2 hc2 he2
  have hfail := run_noops_to_thrown pre []
    { ensure (failM pre t e post) with running := true } g t e post
    (by rw [ensure, failM_norm pre t e post hnd2 hc2 he2]; simp)
    (by rw [ensure, failM_norm pre t e post hnd2 hc2 he2]; simp)
    rfl
    (by rw [ensure, failM_norm pre t e post hnd2 hc2 he2])
    (by rw [ensure, failM_norm pre t e post hnd2 hc2 he2])
    (fun r hr => hlk.1 r hr)
    hlk.2.1
    hlk.2.2
    (by simpa using hnd2)
    (by simpa using he2)
    hf2
  rw [start, start, hsucc, hfail]
  rw [ensure, ensure, classM_norm names hnd1 hc1 he1,
    failM_norm pre t e post hnd2 hc2 he2]
  simp

theorem ensure_runs_once_error_payload_preserved_witness :
    ((start 5 (ensure (classM ["a", "b", "c"]))).exitRuns = 1 ∧
      (start 5 (ensure (classM ["a", "b", "c"]))).emitted = [Emission.success []] ∧
      (start 5 (ensure (failM ["a"] "b" { msg := "boom", stack := some "tr" } ["c"]))).exitRuns = 1 ∧
      (start 5 (ensure (failM ["a"] "b" { msg := "boom", stack := some "tr" } ["c"]))).emitted =
        [Emission.error [Arg.v (Val.err { msg := "boom", stack := some "tr" })]]) :=
  ensure_runs_once_error_payload_preserved ["a", "b", "c"] ["a"] ["c"] "b"
    { msg := "boom", stack := some "tr" } 5 5 (by decide) (by decide) (by decide)
    (by decide) (by decide) (by decide) (by decide) (by decide)

/-- Claim C1 (amended): after invoking a plain-function step handler whose
application returns normally, the sequencer auto-advances to the next
declared state with no arguments if and only if the handler has no
always-wait marker, the state is unchanged, no async transition is pending
AND the machine is still running; otherwise it does nothing further. -/
theorem autoAdvance_requires_running (m : Machine) (s : String) (w : Bool)
    (b : FnBody) (args : Option (List Arg)) (f : Nat) (m2 : Machine)
    (hs : m.state = some s)
    (hl : lookupH m.handlers s = some (FuncOrAct.fn w b))
    (happ : applyBody b { m with trace := m.trace ++ [s] } (args.getD []) =
      ApplyResult.ok m2) :
    goF (f + 1) m args =
      if w = false ∧ m2.state = some s ∧ m2.transitioning = false ∧
          m2.running = true then
        toNextWith (goF f) m2 []
      else m2 := by
  rw [hs] at happ
  rw [goF]
  simp only [hs, Option.some_bind, hl]
  rw [happ]

/-- The machine used to witness the amended C1 statement: one declared
no-op step `a`, positioned at it and running. -/
def witnessM1 : Machine :=
  { addSteps emptyMachine [("a", FuncOrAct.fn false FnBody.noop)] with
    state := some "a", stateIndex := 0, running := true }

/-- `witnessM1` after `go` has recorded the invocation of `a`. -/
def witnessM2 : Machine := { witnessM1 with trace := witnessM1.trace ++ ["a"] }

theorem autoAdvance_requires_running_witness :
    goF 1 witnessM1 none =
      if false = false ∧ witnessM2.state = some "a" ∧
          witnessM2.transitioning = false ∧ witnessM2.running = true then
        toNextWith (goF 0) witnessM2 []
      else witnessM2 :=
  autoAdvance_requires_running witnessM1 "a" false FnBody.noop none 0 witnessM2
    rfl (by decide) rfl

/-- Counterexample to claim C1 as stated: a declared plain-function step
`s0` that calls `emitSuccess` directly.  After the handler runs, the state
is unchanged (`s0`), there is no always-wait marker and no async transition
is pending (`transitioning = false`), so the claim requires an auto-advance
to the next declared state `s1`; the code does not advance (the trace stays
`["s0"]`) because the machine is no longer running. -/
theorem autoAdvance_claim_cex :
    (start 5 (addSteps emptyMachine
      [("s0", FuncOrAct.fn false (FnBody.emitS [])),
       ("s1", FuncOrAct.fn false FnBody.noop)])).state = some "s0" ∧
    (start 5 (addSteps emptyMachine
      [("s0", FuncOrAct.fn false (FnBody.emitS [])),
       ("s1", FuncOrAct.fn false FnBody.noop)])).transitioning = false ∧
    (start 5 (addSteps emptyMachine
      [("s0", FuncOrAct.fn false (FnBody.emitS [])),
       ("s1", FuncOrAct.fn false FnBody.noop)])).trace = ["s0"] ∧
    (start 5 (addSteps emptyMachine
      [("s0", FuncOrAct.fn false (FnBody.emitS [])),
       ("s1", FuncOrAct.fn false FnBody.noop)])).emitted =
      [Emission.success []] := by
  decide

/-- Claim C10: an exception thrown by the current state's handler is caught
by `go`; the stack is logged when present, and the machine jumps to the
`error` state with the exception as payload — unless the current state
already is `error`, in which case the exception is emitted directly as the
machine's error. -/
theorem go_catches_and_routes (m : Machine) (s : String) (w : Bool) (e : JsErr)
    (args : Option (List Arg)) (f : Nat)
    (hs : m.state = some s)
    (hl : lookupH m.handlers s = some (FuncOrAct.fn w (FnBody.throwE e))) :
    (s ≠ "error" →
      goF (f + 1) m args =
        toErrorWith (goF f)
          { m with trace := m.trace ++ [s],
                   loggedStacks := m.loggedStacks ++ stackList e }
          [Arg.v (Val.err e)]) ∧
    (s = "error" →
      goF (f + 1) m args =
        emitError
          { m with trace := m.trace ++ [s],
                   loggedStacks := m.loggedStacks ++ stackList e }
          [Arg.v (Val.err e)]) := by
  constructor
  · intro hcase
    rw [goF]
    simp only [hs, Option.some_bind, hl]
    simp [applyBody, hcase]
  · intro hcase
    rw [goF]
    simp only [hs, Option.some_bind, hl]
    simp [applyBody, hcase]

/-- A JS error with a stack trace, used by witnesses. -/
def witnessErr : JsErr := { msg := "bad", stack := some "st" }

/-- A machine positioned at a declared step `x` whose handler throws. -/
def witnessM3 : Machine :=
  { addSteps emptyMachine [("x", FuncOrAct.fn false (FnBody.throwE witnessErr))] with
    state := some "x", stateIndex := 0, running := true }

theorem go_catches_and_routes_witness :
    goF 3 witnessM3 none =
      toErrorWith (goF 2)
        { witnessM3 with trace := witnessM3.trace ++ ["x"],
                         loggedStacks := witnessM3.loggedStacks ++ stackList witnessErr }
        [Arg.v (Val.err witnessErr)] :=
  (go_catches_and_routes witnessM3 "x" false witnessErr none 2 rfl (by decide)).1
    (by decide)

end NobleMachine

/-! ## Claim theorems for Action, StateMachine and TransitionQueue -/

/-- Claim C9 (amended): `StateMachine.prototype.addState` rejects a second
registration of an existing name — the handler map is unchanged, the
original handler still answers lookups, and a warning is logged; the
sequencer machine's `addState` performs no such check, so there the last
registration wins. -/
theorem addState_first_wins_sm_overwrites_nm :
    (∀ (hs : List (String × Nat)) (ws : List String) (name : String) (h1 h2 : Nat),
      lookupH hs name = none →
      (StateMachine.addState (StateMachine.addState hs ws name h1).1
          (StateMachine.addState hs ws name h1).2 name h2).1 =
        (StateMachine.addState hs ws name h1).1 ∧
      lookupH (StateMachine.addState (StateMachine.addState hs ws name h1).1
          (StateMachine.addState hs ws name h1).2 name h2).1 name = some h1 ∧
      (StateMachine.addState (StateMachine.addState hs ws name h1).1
          (StateMachine.addState hs ws name h1).2 name h2).2 =
        (StateMachine.addState hs ws name h1).2 ++
          ["Warning: a handler for " ++ name ++ " has already been defined."]) ∧
    (∀ (m : NobleMachine.Machine) (name : String) (f1 f2 : NobleMachine.FuncOrAct),
      lookupH (NobleMachine.addState (NobleMachine.addState m name f1) name f2).handlers
        name = some f2) := by
  constructor
  · intro hs ws name h1 h2 hnone
    simp [StateMachine.addState, hnone, lookupH_setH_self]
  · intro m name f1 f2
    simp [NobleMachine.addState, lookupH_setH_self]

theorem addState_first_wins_sm_overwrites_nm_witness :
    (lookupH ([] : List (String × Nat)) "a" = none) ∧
    ((StateMachine.addState (StateMachine.addState [] [] "a" 1).1
        (StateMachine.addState [] [] "a" 1).2 "a" 2).1 =
      (StateMachine.addState [] [] "a" 1).1 ∧
    lookupH (StateMachine.addState (StateMachine.addState [] [] "a" 1).1
        (StateMachine.addState [] [] "a" 1).2 "a" 2).1 "a" = some 1 ∧
    (StateMachine.addState (StateMachine.addState [] [] "a" 1).1
        (StateMachine.addState [] [] "a" 1).2 "a" 2).2 =
      (StateMachine.addState [] [] "a" 1).2 ++
        ["Warning: a handler for " ++ "a" ++ " has already been defined."]) :=
  ⟨rfl, (addState_first_wins_sm_overwrites_nm).1 [] [] "a" 1 2 rfl⟩

/-- Counterexample to claim C9 as stated: on the sequencer machine, a second
`addState` for an existing name is not rejected — the new handler replaces
the original. -/
theorem addState_claim_cex :
    lookupH (NobleMachine.addState
        (NobleMachine.addState NobleMachine.emptyMachine "a"
          (NobleMachine.FuncOrAct.fn false NobleMachine.FnBody.noop))
        "a" NobleMachine.FuncOrAct.undef).handlers "a" =
      some NobleMachine.FuncOrAct.undef ∧
    NobleMachine.FuncOrAct.undef ≠
      NobleMachine.FuncOrAct.fn false NobleMachine.FnBody.noop := by
  decide

/-- Claim C2 (amended): `cancel()` on a parent reaches every tracked
descendant transitively (each receives a `cancel()` call and emits
`cancel`); however the Action records no cancelled state and
`emitSuccess`/`emitError` emit unconditionally, so a cancelled Action is
not prevented from emitting success or error afterwards. -/
theorem cancel_propagates_emits_unguarded :
    (∀ (a : Action.ActionT), ∀ x ∈ Action.descendants a, x ∈ Action.cancelEmits a) ∧
    (∀ (ops : List Action.AOp) (args : List Val),
      Action.runOps (ops ++ [Action.AOp.emitSuccessOp args]) =
        Action.runOps ops ++ [Action.AEvent.success args]) ∧
    (∀ (ops : List Action.AOp) (args : List Val),
      Action.runOps (ops ++ [Action.AOp.emitErrorOp args]) =
        Action.runOps ops ++ [Action.AEvent.error args]) := by
  refine ⟨?_, ?_, ?_⟩
  · intro a x hx
    match a with
    | .mk i subs =>
      simp only [Action.descendants] at hx
      exact Action.mem_cancelEmits_of_mem_allIds (.mk i subs) x
        (by simp [Action.allIds, hx])
  · intro ops args
    induction ops with
    | nil => rfl
    | cons op rest ih =>
      cases op <;> simp [Action.runOps, ih]
  · intro ops args
    induction ops with
    | nil => rfl
    | cons op rest ih =>
      cases op <;> simp [Action.runOps, ih]

theorem cancel_propagates_emits_unguarded_witness :
    (2 ∈ Action.descendants (.mk 0 [.mk 1 [.mk 2 []]]) ∧
      2 ∈ Action.cancelEmits (.mk 0 [.mk 1 [.mk 2 []]])) ∧
    Action.runOps ([Action.AOp.cancelOp] ++ [Action.AOp.emitSuccessOp []]) =
      Action.runOps [Action.AOp.cancelOp] ++ [Action.AEvent.success []] :=
  ⟨⟨by decide,
    cancel_propagates_emits_unguarded.1 (.mk 0 [.mk 1 [.mk 2 []]]) 2 (by decide)⟩,
   cancel_propagates_emits_unguarded.2.1 [Action.AOp.cancelOp] []⟩

/-- Counterexample to claim C2 as stated: an Action that has been cancelled
and whose `emitSuccess` is then invoked still emits `success` — the emitter
performs no cancellation check. -/
theorem cancelled_still_emits_cex :
    Action.runOps [Action.AOp.cancelOp, Action.AOp.emitSuccessOp []] =
      [Action.AEvent.cancel, Action.AEvent.success []] ∧
    Action.AEvent.success [] ∈
      Action.runOps [Action.AOp.cancelOp, Action.AOp.emitSuccessOp []] := by
  decide

/-- Claim C3: `addAction(sub, {bubbleErrors: true})` registers and starts
the sub-action, and when that sub-action fails, the bubbling listener
cancels every other tracked sibling (exactly the tracked sub-actions other
than the failing one) and re-emits the error on the parent with the same
arguments. -/
theorem addAction_bubble_failFast (p : Action.ParentState) (sub : Nat)
    (args : List Val) :
    sub ∈ (Action.addAction p sub true).subActions ∧
    sub ∈ (Action.addAction p sub true).startedSubs ∧
    Action.bubbleError (Action.addAction p sub true) sub args =
      ((Action.addAction p sub true).subActions.filter (fun a => a ≠ sub),
        [Action.AEvent.error args]) ∧
    (∀ o ∈ (Action.addAction p sub true).subActions, o ≠ sub →
      o ∈ (Action.bubbleError (Action.addAction p sub true) sub args).1) := by
  refine ⟨by simp [Action.addAction], by simp [Action.addAction], ?_, ?_⟩
  · simp [Action.addAction, Action.bubbleError]
  · intro o ho hne
    simp only [Action.bubbleError]
    rw [if_pos (by simp [Action.addAction])]
    simp only [List.mem_filter]
    exact ⟨ho, by simp [hne]⟩

/-- A parent Action with two already-tracked sub-actions, for witnesses. -/
def parentW : Action.ParentState :=
  { subActions := [4, 5], startedSubs := [4, 5], bubbleListeners := [] }

theorem addAction_bubble_failFast_witness :
    Action.bubbleError (Action.addAction parentW 6 true) 6 [Val.str "boom"] =
      ((Action.addAction parentW 6 true).subActions.filter (fun a => a ≠ 6),
        [Action.AEvent.error [Val.str "boom"]]) ∧
    4 ∈ (Action.bubbleError (Action.addAction parentW 6 true) 6 [Val.str "boom"]).1 := by
  have h := addAction_bubble_failFast parentW 6 [Val.str "boom"]
  exact ⟨h.2.2.1, h.2.2.2 4 (by decide) (by decide)⟩

/-- Claim C8: an Action with zero user error listeners receiving an error is
fatal and observable: the stack trace is logged when available, the
unhandled-error message is always logged, the error escalates as a throw,
and no listener silently swallows it. -/
theorem unhandled_error_fatal (e : JsErr) :
    (Action.emitErrorDispatch 0 e).thrown =
      some ("Unhandled error in action: " ++ e.msg) ∧
    (Action.emitErrorDispatch 0 e).logged ≠ [] ∧
    (∀ st, e.stack = some st → st ∈ (Action.emitErrorDispatch 0 e).logged) ∧
    (Action.emitErrorDispatch 0 e).deliveredTo = 0 := by
  refine ⟨rfl, ?_, ?_, rfl⟩
  · simp only [Action.emitErrorDispatch, if_pos rfl]
    cases h : e.stack <;> simp [stackList, h]
  · intro st hst
    simp [Action.emitErrorDispatch, stackList, hst]

theorem unhandled_error_fatal_witness :
    (Action.emitErrorDispatch 0 { msg := "boom", stack := some "trace" }).thrown =
      some ("Unhandled error in action: " ++ "boom") ∧
    "trace" ∈ (Action.emitErrorDispatch 0 { msg := "boom", stack := some "trace" }).logged :=
  ⟨(unhandled_error_fatal { msg := "boom", stack := some "trace" }).1,
   (unhandled_error_fatal { msg := "boom", stack := some "trace" }).2.2.1 "trace" rfl⟩

/-- Options for `StateMachine.transition` with no explicit targets. -/
def optsW : StateMachine.SMOpts :=
  { action := 3, success := none, error := none, data := none }

/-- Options for the C4 counterexample: no explicit error target. -/
def optsCex : StateMachine.SMOpts :=
  { action := 0, success := none, error := none, data := none }

/-- A parent Action with no tracked sub-actions, for the C4 counterexample. -/
def parentCex : Action.ParentState :=
  { subActions := [], startedSubs := [], bubbleListeners := [] }

/-- Claim C4 (amended): `StateMachine.prototype.transition` always registers
the action as a tracked sub-Action, but because the error target is
defaulted to `'error'` before the bubbling decision (`bubbleErrors:
!opts.error` runs on the already-defaulted options), error bubbling is
suppressed both when an explicit error target is supplied and when none is;
with no explicit error target the failure is instead routed to the
machine's `error` state by the attached error listener.  Bubbling is
enabled only when the caller explicitly supplies a falsy error target. -/
theorem transition_bubbling_suppressed (o : StateMachine.SMOpts) :
    (StateMachine.transition o).addedAsSub = true ∧
    ((StateMachine.transition o).bubbleErrors = true ↔ o.error = some "") ∧
    (o.error = none →
      (StateMachine.transition o).bubbleErrors = false ∧
      (StateMachine.transition o).errorTarget = some "error" ∧
      (StateMachine.transition o).errorListenerAttached = true) := by
  refine ⟨rfl, ?_, ?_⟩
  · cases he : o.error with
    | none => simp [StateMachine.transition, StateMachine.mixinDefaults, he]
    | some s => simp [StateMachine.transition, StateMachine.mixinDefaults, he]
  · intro he
    simp [StateMachine.transition, StateMachine.mixinDefaults, he]

theorem transition_bubbling_suppressed_witness :
    (StateMachine.transition optsW).bubbleErrors = false ∧
    (StateMachine.transition optsW).errorTarget = some "error" :=
  ⟨((transition_bubbling_suppressed optsW).2.2 rfl).1,
   ((transition_bubbling_suppressed optsW).2.2 rfl).2.1⟩

/-- Counterexample to claim C4 as stated: a transition with no explicit
error target still has bubbling suppressed (`bubbleErrors = false`), and
consequently the child's failure does not bubble on the parent Action —
nothing is cancelled and no error is re-emitted through the bubbling path. -/
theorem transition_bubbling_claim_cex :
    (StateMachine.transition optsCex).bubbleErrors = false ∧
    Action.bubbleError
        (Action.addAction parentCex 7 (StateMachine.transition optsCex).bubbleErrors)
        7 [Val.str "boom"] = ([], []) := by
  decide

theorem processEvents_count (evs : List (Nat × Bool)) :
    ∀ (q : TransitionQueue.QState),
    (∀ p ∈ evs, ∀ t, q.transitions[p.1]? = some t →
      TransitionQueue.counted t p.2 = true) →
    (∀ p ∈ evs, p.1 < q.transitions.length) →
    (TransitionQueue.processEvents q evs).transitions = q.transitions ∧
    (TransitionQueue.processEvents q evs).completedItems =
      q.completedItems + evs.length ∧
    (TransitionQueue.processEvents q evs).finalFires =
      q.finalFires + (if q.completedItems < q.transitions.length ∧
        q.transitions.length ≤ q.completedItems + evs.length then 1 else 0) := by
  induction evs with
  | nil =>
    intro q _ _
    refine ⟨rfl, by simp [TransitionQueue.processEvents], ?_⟩
    simp only [TransitionQueue.processEvents, List.foldl_nil, List.length_nil]
    rw [if_neg (by omega)]
    rfl
  | cons ev rest ih =>
    intro q hcnt hvalid
    obtain ⟨i, b⟩ := ev
    have hi : i < q.transitions.length := hvalid (i, b) (by simp)
    have ht : q.transitions[i]? = some q.transitions[i] :=
      List.getElem?_eq_getElem hi
    have hc := hcnt (i, b) (by simp) _ ht
    have hq' : TransitionQueue.processEvent q (i, b) =
        { q with completedItems := q.completedItems + 1,
                 finalFires := if q.completedItems + 1 = q.transitions.length
                   then q.finalFires + 1 else q.finalFires } := by
      simp [TransitionQueue.processEvent, ht, hc]
    simp only [TransitionQueue.processEvents, List.foldl_cons]
    rw [hq']
    have hrest := ih
      { q with completedItems := q.completedItems + 1,
               finalFires := if q.completedItems + 1 = q.transitions.length
                 then q.finalFires + 1 else q.finalFires }
      (fun p hp t htt => hcnt p (by simp [hp]) t htt)
      (fun p hp => hvalid p (by simp [hp]))
    rcases hrest with ⟨h1, h2, h3⟩
    refine ⟨h1, ?_, ?_⟩
    · simp only [TransitionQueue.processEvents] at h2
      rw [h2]
      simp only [List.length_cons]
      omega
    · simp only [TransitionQueue.processEvents] at h3
      rw [h3]
      simp only [List.length_cons]
      split_ifs <;> omega

/-- Claim C5: a parallel transition queue started over `specs`, observing
one terminal event per spec in an arbitrary order, where every event is
counted (successes always; errors because the spec declared an explicit
error target), sends the bound machine to the final state exactly once —
after all `K` completion signals and never before; `K = 0` fires the final
transition immediately on start. -/
theorem start_joins_exactly_once (specs : List TransitionQueue.TSpec)
    (evs : List (Nat × Bool))
    (hperm : (evs.map Prod.fst).Perm (List.range specs.length))
    (hcnt : ∀ p ∈ evs, ∀ t, specs[p.1]? = some t →
      TransitionQueue.counted t p.2 = true) :
    (TransitionQueue.processEvents
      (TransitionQueue.start ⟨specs, false, 0, 0⟩) evs).finalFires = 1 ∧
    (∀ pre suf, evs = pre ++ suf → suf ≠ [] →
      (TransitionQueue.processEvents
        (TransitionQueue.start ⟨specs, false, 0, 0⟩) pre).finalFires = 0) := by
  have hlen : evs.length = specs.length := by
    have := hperm.length_eq
    simpa using this
  have hvalid : ∀ p ∈ evs, p.1 < specs.length := by
    intro p hp
    exact List.mem_range.mp (hperm.mem_iff.mp (List.mem_map_of_mem Prod.fst hp))
  by_cases hK : specs.length = 0
  · have hspecs : specs = [] := List.length_eq_zero.mp hK
    have hevs : evs = [] := List.length_eq_zero.mp (by omega)
    subst hspecs hevs
    constructor
    · rfl
    · intro pre suf hsp hne
      exact absurd (List.append_eq_nil.mp hsp.symm).2 hne
  · have hstart : TransitionQueue.start ⟨specs, false, 0, 0⟩ =
        { transitions := specs, started := true, completedItems := 0,
          finalFires := 0 } := by
      simp [TransitionQueue.start, hK]
    rw [hstart]
    constructor
    · have h3 := (processEvents_count evs
        { transitions := specs, started := true, completedItems := 0, finalFires := 0 }
        hcnt hvalid).2.2
      dsimp only at h3
      rw [h3, if_pos (by omega)]
    · intro pre suf hsp hne
      have hpre : ∀ p ∈ pre, p.1 < specs.length :=
        fun p hp => hvalid p (by rw [hsp]; exact List.mem_append_left suf hp)
      have hprec : ∀ p ∈ pre, ∀ t, specs[p.1]? = some t →
          TransitionQueue.counted t p.2 = true :=
        fun p hp => hcnt p (by rw [hsp]; exact List.mem_append_left suf hp)
      have h3 := (processEvents_count pre
        { transitions := specs, started := true, completedItems := 0, finalFires := 0 }
        hprec hpre).2.2
      dsimp only at h3
      have hsuf : suf.length ≠ 0 := fun hz => hne (List.length_eq_zero.mp hz)
      have hplen : pre.length + suf.length = evs.length := by
        rw [hsp]
        simp
      rw [h3, if_neg (by omega)]

/-- Two specs for the C5 witness: the first with only a success target, the
second declaring an explicit error target (so its error is counted). -/
def specsW : List TransitionQueue.TSpec :=
  [⟨0, some "sA", none, none⟩, ⟨1, some "sB", some "errB", none⟩]

theorem start_joins_exactly_once_witness :
    (([((1 : Nat), false), ((0 : Nat), true)].map Prod.fst).Perm
        (List.range specsW.length) ∧
      (TransitionQueue.processEvents
        (TransitionQueue.start ⟨specsW, false, 0, 0⟩)
        [((1 : Nat), false), ((0 : Nat), true)]).finalFires = 1) :=
  ⟨by decide,
   (start_joins_exactly_once specsW [((1 : Nat), false), ((0 : Nat), true)]
      (by decide) (by decide)).1⟩
